import Mathlib

/-!
Verification development for the SPV wallet synchronization core
(`blockchain.go` / `requestqueue.go` of Elastos.ELA.SPV).

The Go code is shallowly embedded: the SQLite/headers stores become explicit
state records threaded through the operations, fallible storage operations
return `Except` (with a `FailSpec` oracle injecting storage failures),
asynchronous callbacks become an event trace, and the request queue becomes a
state machine whose blocking channel operations are modelled as enabledness
preconditions of a step relation.
-/

set_option maxHeartbeats 1000000

abbrev Hash := Nat
abbrev Addr := Nat
abbrev BlockProof := Nat

/-- An outpoint: a (transaction id, output index) pair (`tx.OutPoint`). -/
structure OutPoint where
  txID : Hash
  index : Nat
deriving DecidableEq, Repr

/-- A block header (`core.Header`): the fields the chain logic reads.
`hashVal` stands for `header.Hash()`. -/
structure Header where
  height : Nat
  previous : Hash
  hashVal : Hash
deriving DecidableEq, Repr

/-- A transaction output (`tx.Output`). -/
structure Output where
  programHash : Addr
  value : Int
deriving DecidableEq, Repr

/-- A transaction input (`tx.Input`). -/
structure Input where
  referTxID : Hash
  referTxOutputIndex : Nat
deriving DecidableEq, Repr

inductive TxType where
  | coinBase
  | regular
deriving DecidableEq, Repr

/-- A transaction (`tx.Transaction`); `hash` stands for `txn.Hash()`. -/
structure Transaction where
  txType : TxType
  outputs : List Output
  inputs : List Input
  hash : Hash
deriving DecidableEq, Repr

/-- A wallet-relevant unspent output (`db.UTXO`). -/
structure UTXO where
  op : OutPoint
  value : Int
  lockTime : Nat
  atHeight : Nat
deriving DecidableEq, Repr

/-- A spent output retained for rollback (`db.STXO`); keeps the address key
and original UTXO so a rollback can restore it. -/
structure STXO where
  addr : Addr
  utxo : UTXO
  spendTxId : Hash
  spendHeight : Nat
deriving DecidableEq, Repr

/-- A persisted transaction record (`db.Txn`). -/
structure TxnRec where
  txId : Hash
  height : Nat
deriving DecidableEq, Repr

/-- Callback invocations (`OnTxCommit` / `OnBlockCommit` / `OnRollback`),
recorded as an event trace since the Go code fires them asynchronously. -/
inductive Event where
  | txCommit (txn : Transaction)
  | blockCommit (header : Header) (proof : BlockProof) (txns : List Transaction)
  | rollback (height : Nat)
deriving DecidableEq, Repr

/-- Modelled from the spec: the wallet datastore (§6) — address filter,
UTXO table keyed by address, STXO table, transaction table, proof table and
the chain-height marker. -/
structure DataStore where
  addrFilter : List Addr
  utxos : List (Addr × UTXO)
  stxos : List STXO
  txnRecs : List TxnRec
  proofs : List BlockProof
  chainHeight : Nat
deriving DecidableEq, Repr

/-- Failure oracle for the fallible storage operations: which put/add calls
return a storage error.  The Go code treats storage as an external
collaborator whose errors are propagated verbatim. -/
structure FailSpec where
  utxoPutFails : Addr → UTXO → Bool
  txnPutFails : TxnRec → Bool
  proofPutFails : BlockProof → Bool
  headerAddFails : Header → Bool
  dsRollbackFails : Nat → Bool

/-- The all-successful storage oracle. -/
def noFail : FailSpec :=
  ⟨fun _ _ => false, fun _ => false, fun _ => false, fun _ => false, fun _ => false⟩

/-- Modelled from the spec: `UTXOs().Put(programHash, utxo)` appends a UTXO
under its address key, or returns the injected storage error. -/
def utxoPut (fs : FailSpec) (addr : Addr) (u : UTXO) (ds : DataStore) :
    Except String DataStore :=
  if fs.utxoPutFails addr u then .error "utxo put failed"
  else .ok { ds with utxos := (addr, u) :: ds.utxos }

/-- Modelled from the spec: `STXOs().FromUTXO(outpoint, txId, height)` moves
the UTXO matching the outpoint into the STXO table; it errors when no stored
UTXO matches (the Go caller counts a hit exactly when no error is returned). -/
def fromUTXO (op : OutPoint) (spendTxId : Hash) (spendHeight : Nat)
    (ds : DataStore) : Except String DataStore :=
  match ds.utxos.find? (fun p => decide (p.2.op = op)) with
  | none => .error "no utxo for outpoint"
  | some (a, u) =>
      .ok { ds with
        utxos := ds.utxos.eraseP (fun p => decide (p.2.op = op)),
        stxos := ⟨a, u, spendTxId, spendHeight⟩ :: ds.stxos }

/-- `ToUTXO`: build the UTXO record for one matched output. -/
def ToUTXO (txId : Hash) (height : Nat) (index : Nat) (value : Int)
    (lockTime : Nat) : UTXO :=
  ⟨⟨txId, index⟩, value, lockTime, height⟩

/-- `ToTxn`: build the persisted transaction record. -/
def ToTxn (txn : Transaction) (height : Nat) : TxnRec :=
  ⟨txn.hash, height⟩

/-- The maturity lock of a committed output: `height + 100` for a coinbase
transaction, none (zero) otherwise. -/
def lockTimeOf (txType : TxType) (height : Nat) : Nat :=
  match txType with
  | .coinBase => height + 100
  | .regular => 0

/-- The output loop of `commitTxn`: for each output whose address is in the
watched-address filter, put a UTXO (coinbase outputs get lock `height + 100`)
and count a hit.  Returns the error outcome, the datastore as mutated so far
(writes before a failing put stay persisted) and the hit count. -/
def putOutputs (fs : FailSpec) (txId : Hash) (txType : TxType) (height : Nat) :
    List Output → Nat → DataStore → Nat → Except String Unit × DataStore × Nat
  | [], _, ds, hits => (.ok (), ds, hits)
  | output :: rest, index, ds, hits =>
    if output.programHash ∈ ds.addrFilter then
      match utxoPut fs output.programHash
          (ToUTXO txId height index output.value (lockTimeOf txType height)) ds with
      | .error e => (.error e, ds, hits)
      | .ok ds' => putOutputs fs txId txType height rest (index + 1) ds' (hits + 1)
    else putOutputs fs txId txType height rest (index + 1) ds hits

/-- The input loop of `commitTxn`: try to move each input's referenced
outpoint from UTXO to STXO; success counts a hit, an error is swallowed. -/
def putInputs (txId : Hash) (height : Nat) :
    List Input → DataStore → Nat → DataStore × Nat
  | [], ds, hits => (ds, hits)
  | input :: rest, ds, hits =>
    match fromUTXO ⟨input.referTxID, input.referTxOutputIndex⟩ txId height ds with
    | .ok ds' => putInputs txId height rest ds' (hits + 1)
    | .error _ => putInputs txId height rest ds hits

/-- `commitTxn`: commit one transaction at a height; returns whether it was a
false positive (zero hits), the mutated datastore, and the event trace. -/
def commitTxn (fs : FailSpec) (height : Nat) (txn : Transaction)
    (ds : DataStore) (evs : List Event) :
    Except String Bool × DataStore × List Event :=
  let txId := txn.hash
  match putOutputs fs txId txn.txType height txn.outputs 0 ds 0 with
  | (.error e, ds1, _) => (.error e, ds1, evs)
  | (.ok (), ds1, hits1) =>
    let r := putInputs txId height txn.inputs ds1 hits1
    if r.2 = 0 then (.ok true, r.1, evs)
    else
      let trec := ToTxn txn height
      if fs.txnPutFails trec then (.error "txn put failed", r.1, evs)
      else (.ok false, { r.1 with txnRecs := trec :: r.1.txnRecs },
            Event.txCommit txn :: evs)

/-- The transaction loop of `CommitBlock`: commit each transaction in order,
stopping at the first error, counting false positives. -/
def commitTxns (fs : FailSpec) (height : Nat) :
    List Transaction → DataStore → List Event → Nat →
    Except String Nat × DataStore × List Event
  | [], ds, evs, fPositives => (.ok fPositives, ds, evs)
  | txn :: rest, ds, evs, fPositives =>
    match commitTxn fs height txn ds evs with
    | (.error e, ds', evs') => (.error e, ds', evs')
    | (.ok fPositive, ds', evs') =>
        commitTxns fs height rest ds' evs'
          (if fPositive then fPositives + 1 else fPositives)

/-- Modelled from the spec: `DataStore.Rollback(height)` reverses the table
effects at a height — deletes the UTXOs created there, restores the STXOs
spent there back to UTXOs, and deletes the Txn records of that height. -/
def dsRollback (height : Nat) (ds : DataStore) : DataStore :=
  { ds with
    utxos := ds.utxos.filter (fun p => decide (p.2.atHeight ≠ height)) ++
      (ds.stxos.filter (fun s => decide (s.spendHeight = height))).map
        (fun s => (s.addr, s.utxo)),
    stxos := ds.stxos.filter (fun s => decide (s.spendHeight ≠ height)),
    txnRecs := ds.txnRecs.filter (fun t => decide (t.height ≠ height)) }

/-- The loop of `rollbackTo`, recursing over the headers store (tip first).
`Headers.Rollback()` pops the tip; on an exhausted store it returns an error
(modelled from the spec: exhaustion during rollback is a fatal error). -/
def rollbackToAux (fs : FailSpec) (forkPoint : Hash) :
    List Header → DataStore → List Event →
    Except String Unit × List Header × DataStore × List Event
  | [], ds, evs => (.error "headers store exhausted", [], ds, evs)
  | removed :: rest, ds, evs =>
    if fs.dsRollbackFails removed.height then
      (.error "rollback database failed", rest, ds, evs)
    else
      let ds1 := dsRollback removed.height ds
      let evs1 := Event.rollback removed.height :: evs
      if removed.previous = forkPoint then
        (.ok (), rest, { ds1 with chainHeight := removed.height - 1 }, evs1)
      else rollbackToAux fs forkPoint rest ds1 evs1

/-- The chain manager state: the headers store (tip first), the wallet
datastore, and the trace of fired callbacks. -/
structure Blockchain where
  headers : List Header
  ds : DataStore
  events : List Event
deriving DecidableEq, Repr

/-- `rollbackTo(forkPoint)`: pop tips and roll the datastore back until the
popped header's previous hash equals the fork point. -/
def rollbackTo (fs : FailSpec) (forkPoint : Hash) (bc : Blockchain) :
    Except String Unit × Blockchain :=
  match rollbackToAux fs forkPoint bc.headers bc.ds bc.events with
  | (r, hs, ds, evs) => (r, ⟨hs, ds, evs⟩)

/-- The commit phase of `CommitBlock` after the (possible) rollback: save the
transactions, then the merkle proof, then the header, then the chain height,
then fire the block-commit callback. -/
def commitAfterRollback (fs : FailSpec) (bc : Blockchain) (header : Header)
    (proof : BlockProof) (txns : List Transaction) :
    Except String Nat × Blockchain :=
  match commitTxns fs header.height txns bc.ds bc.events 0 with
  | (.error e, ds', evs') => (.error e, ⟨bc.headers, ds', evs'⟩)
  | (.ok fPositives, ds', evs') =>
    if fs.proofPutFails proof then
      (.error "proof put failed", ⟨bc.headers, ds', evs'⟩)
    else
      let ds2 := { ds' with proofs := proof :: ds'.proofs }
      if fs.headerAddFails header then
        (.error "header add failed", ⟨bc.headers, ds2, evs'⟩)
      else
        (.ok fPositives,
          ⟨header :: bc.headers, { ds2 with chainHeight := header.height },
            Event.blockCommit header proof txns :: evs'⟩)

/-- `CommitBlock`: read the tip (error on an empty store), roll back to
`header.previous` when the incoming header's height is below the tip height,
then run the commit phase. -/
def CommitBlock (fs : FailSpec) (bc : Blockchain) (header : Header)
    (proof : BlockProof) (txns : List Transaction) :
    Except String Nat × Blockchain :=
  match bc.headers.head? with
  | none => (.error "empty headers store", bc)
  | some tip =>
    if header.height < tip.height then
      match rollbackTo fs header.previous bc with
      | (.error e, bc') => (.error e, bc')
      | (.ok (), bc') => commitAfterRollback fs bc' header proof txns
    else commitAfterRollback fs bc header proof txns

/-- `CommitUnconfirmedTxn`: apply one transaction at height 0. -/
def CommitUnconfirmedTxn (fs : FailSpec) (bc : Blockchain) (txn : Transaction) :
    Except String Bool × Blockchain :=
  match commitTxn fs 0 txn bc.ds bc.events with
  | (r, ds', evs') => (r, ⟨bc.headers, ds', evs'⟩)

/-- The zero-hit (pure false positive) predicate of the claim: no output's
address is in the watched-address filter and no input's outpoint matches a
stored UTXO. -/
def zeroHitB (ds : DataStore) (txn : Transaction) : Bool :=
  txn.outputs.all (fun o => decide (o.programHash ∉ ds.addrFilter)) &&
  txn.inputs.all (fun i => ds.utxos.all
    (fun p => decide (p.2.op ≠ OutPoint.mk i.referTxID i.referTxOutputIndex)))

/-- Count, along the actual sequential commit of a block's transactions, how
many of them are zero-hit at their point of processing. -/
def zeroHitCount (fs : FailSpec) (height : Nat) :
    List Transaction → DataStore → List Event → Nat
  | [], _, _ => 0
  | txn :: rest, ds, evs =>
    (if zeroHitB ds txn then 1 else 0) +
      zeroHitCount fs height rest (commitTxn fs height txn ds evs).2.1
        (commitTxn fs height txn ds evs).2.2

/-- `MaxBlockLocatorHashes`. -/
def MaxBlockLocatorHashes : Nat := 200

/-- The loop of `GetBlockLocatorHashes` over a chain given as the list of
header hashes from the tip backwards; `pos` is the current position, `fuel`
the remaining emission budget (200 at entry).  On loop entry the step doubles
once `start` reaches 9; after emitting, the walk moves back by the step and
stops when it walks off the start of the chain. -/
def locatorLoop (chain : List Hash) : Nat → Nat → Nat → Nat → List Hash
  | _, _, _, 0 => []
  | pos, step, start, fuel + 1 =>
    let step' := if 9 ≤ start then 2 * step else step
    let start' := if 9 ≤ start then 0 else start
    match chain.get? pos with
    | none => []
    | some h =>
      h :: (if fuel = 0 then []
        else if chain.length ≤ pos + step' then []
        else locatorLoop chain (pos + step') step' (start' + 1) fuel)

/-- `GetBlockLocatorHashes`: empty locator on an empty chain, otherwise run
the sparse-locator walk from the tip with step 1. -/
def GetBlockLocatorHashes (chain : List Hash) : List Hash :=
  match chain with
  | [] => []
  | _ :: _ => locatorLoop chain 0 1 0 MaxBlockLocatorHashes

/-- `PowLimit`: the highest 256-bit value with the top bit clear. -/
def PowLimit : Int := 2 ^ 255 - 1

/-- `HashToBig`: a hash is stored little-endian; reverse the bytes and read
them as a big-endian integer. -/
def HashToBig (hash : List Nat) : Nat :=
  hash.reverse.foldl (fun acc b => acc * 256 + b) 0

/-- `CompactToBig`: decode the 32-bit compact difficulty representation —
low 23 bits mantissa, bit 23 sign, top 8 bits exponent (a byte count,
base 256), pivoting at exponent 3. -/
def CompactToBig (compact : Nat) : Int :=
  let mantissa := compact &&& 0x007fffff
  let isNegative := compact &&& 0x00800000 ≠ 0
  let exponent := compact >>> 24
  let bn : Nat :=
    if exponent ≤ 3 then mantissa >>> (8 * (3 - exponent))
    else mantissa <<< (8 * (exponent - 3))
  if isNegative then -(bn : Int) else (bn : Int)

/-- The spec's wording of the compact decoding: mantissa = low 23 bits,
sign = bit 23, exponent = top 8 bits; divide by `256^(3−exponent)` when the
exponent is at most 3, multiply by `256^(exponent−3)` otherwise, and negate
exactly when the sign bit is set. -/
def CompactToBigSpec (compact : Nat) : Int :=
  let mantissa := compact % 2 ^ 23
  let sign := compact / 2 ^ 23 % 2 = 1
  let exponent := compact / 2 ^ 24
  let shifted : Nat :=
    if exponent ≤ 3 then mantissa / 256 ^ (3 - exponent)
    else mantissa * 256 ^ (exponent - 3)
  (if sign then -1 else 1) * (shifted : Int)

/-- The header fields `CheckProofOfWork` reads: the compact difficulty bits
and the merged-mining auxiliary parent-block hash (little-endian bytes). -/
structure PowHeader where
  bits : Nat
  auxParBlockHash : List Nat
deriving DecidableEq, Repr

/-- `CheckProofOfWork`: target from the compact bits must be positive, at
most `PowLimit`, and at least the auxiliary block hash read as an integer. -/
def CheckProofOfWork (header : PowHeader) : Except String Unit :=
  let target := CompactToBig header.bits
  if target ≤ 0 then
    .error "block target difficulty is too low"
  else if PowLimit < target then
    .error "block target difficulty is higher than max of limit"
  else if target < (HashToBig header.auxParBlockHash : Int) then
    .error "block target difficulty is higher than expected difficulty"
  else
    .ok ()

/-- The request queue state: the three bounded channels (as lists of their
current occupants), the pending block-request map, the pending
block-transaction-group map (block hash to outstanding transaction ids), the
transaction-id-to-block map, the group lock (`blockTxsReqsLock`), and the
finished pool (as the block hashes handed to the completion path). -/
structure QState where
  hashesQueue : List Hash
  blocksQueue : List Hash
  blockTxsQueue : List Hash
  blockRequests : List Hash
  blockTxsRequests : List (Hash × List Hash)
  blockTxs : List (Hash × Hash)
  txsLockHeld : Bool
  finished : List Hash
deriving DecidableEq, Repr

/-- `NewRequestQueue`: all channels and maps start empty, the lock free. -/
def initQState : QState := ⟨[], [], [], [], [], [], false, []⟩

/-- One element of `PushHashes`: enqueue a hash onto the intake channel
(capacity `2×size`; the capacity bound is the enabledness condition of the
corresponding step). -/
def PushHash (h : Hash) (s : QState) : QState :=
  { s with hashesQueue := s.hashesQueue ++ [h] }

/-- `StartBlockRequest`: no-op if the hash already has an outstanding
request; otherwise take a block slot and register the request. -/
def StartBlockRequest (h : Hash) (s : QState) : QState :=
  if h ∈ s.blockRequests then s
  else { s with
    blocksQueue := s.blocksQueue ++ [h],
    blockRequests := h :: s.blockRequests }

/-- `StartBlockTxsRequest`: on the early-return path (the block already has
an outstanding group) the Go code returns without releasing
`blockTxsReqsLock`, so the lock stays held; otherwise take a group slot,
record every id-to-block mapping and register the group. -/
def StartBlockTxsRequest (bh : Hash) (txIds : List Hash) (s : QState) : QState :=
  if (s.blockTxsRequests.lookup bh).isSome then { s with txsLockHeld := true }
  else { s with
    blockTxsQueue := s.blockTxsQueue ++ [bh],
    blockTxs := txIds.map (fun t => (t, bh)) ++ s.blockTxs,
    blockTxsRequests := (bh, txIds) :: s.blockTxsRequests }

/-- `OnBlockReceived`: unknown blocks are ignored; a known block's request is
finished and removed, one block slot is released, and either the unit
completes immediately (no matched transactions) or its transaction group is
started. -/
def OnBlockReceived (bh : Hash) (txIds : List Hash) (s : QState) : QState :=
  if bh ∈ s.blockRequests then
    let s1 := { s with
      blockRequests := s.blockRequests.erase bh,
      blocksQueue := s.blocksQueue.tail }
    if txIds.isEmpty then { s1 with finished := bh :: s1.finished }
    else StartBlockTxsRequest bh txIds s1
  else s

/-- `OnTxReceived`: unknown transactions are ignored with a nil result; a
known transaction's mapping is removed, then its owning group is looked up —
a missing group is a returned error; otherwise the transaction is removed
from the group and, when the group empties, the group is removed, one group
slot is released and the unit is handed to the completion path. -/
def OnTxReceived (t : Hash) (s : QState) : Except String Unit × QState :=
  match s.blockTxs.lookup t with
  | none => (.ok (), s)
  | some bh =>
    let s1 := { s with blockTxs := s.blockTxs.filter (fun p => decide (p.1 ≠ t)) }
    match s1.blockTxsRequests.lookup bh with
    | none => (.error "Request not exist", s1)
    | some grp =>
      let grp' := grp.filter (fun x => decide (x ≠ t))
      if grp'.isEmpty then
        (.ok (), { s1 with
          blockTxsRequests := s1.blockTxsRequests.filter (fun p => decide (p.1 ≠ bh)),
          blockTxsQueue := s1.blockTxsQueue.tail,
          finished := bh :: s1.finished })
      else
        (.ok (), { s1 with
          blockTxsRequests := s1.blockTxsRequests.map
            (fun p => if p.1 = bh then (bh, grp') else p) })

/-- `Clear`: drain the three channels and discard the pending block and
group maps.  The id-to-block map (`blockTxs`) and the finished pool are not
cleared. -/
def ClearQ (s : QState) : QState :=
  { s with
    hashesQueue := [], blocksQueue := [], blockTxsQueue := [],
    blockRequests := [], blockTxsRequests := [] }

/-- The atomic transitions of a `RequestQueue` of bound `size`.  A blocking
channel send appears as an enabledness condition (the channel has room); an
operation that takes the group lock requires it free. -/
inductive QStep (size : Nat) : QState → QState → Prop where
  | push (h : Hash) (s : QState) :
      s.hashesQueue.length < 2 * size →
      QStep size s (PushHash h s)
  | worker (h : Hash) (rest : List Hash) (s : QState) :
      s.hashesQueue = h :: rest →
      (h ∉ s.blockRequests → s.blocksQueue.length < size) →
      QStep size s (StartBlockRequest h { s with hashesQueue := rest })
  | blockRecv (bh : Hash) (txIds : List Hash) (s : QState) :
      (bh ∈ s.blockRequests → ¬txIds.isEmpty → ¬s.txsLockHeld) →
      (bh ∈ s.blockRequests → ¬txIds.isEmpty →
        (s.blockTxsRequests.lookup bh).isNone →
        s.blockTxsQueue.length < size) →
      QStep size s (OnBlockReceived bh txIds s)
  | txRecv (t : Hash) (s : QState) :
      ¬s.txsLockHeld →
      QStep size s (OnTxReceived t s).2
  | clearStep (s : QState) :
      ¬s.txsLockHeld →
      QStep size s (ClearQ s)

/-- The states a `RequestQueue` of bound `size` can reach from construction. -/
inductive QReach (size : Nat) : QState → Prop where
  | init : QReach size initQState
  | step {s s' : QState} : QReach size s → QStep size s s' → QReach size s'

/-- The inductive invariant: each pending map is in bijection with the
occupancy of its slot channel, channels respect their capacities, and the
group map has no duplicate keys. -/
def QInv (size : Nat) (s : QState) : Prop :=
  s.blockRequests.length = s.blocksQueue.length ∧
  s.blocksQueue.length ≤ size ∧
  s.blockTxsRequests.length = s.blockTxsQueue.length ∧
  s.blockTxsQueue.length ≤ size ∧
  s.hashesQueue.length ≤ 2 * size ∧
  (s.blockTxsRequests.map Prod.fst).Nodup

theorem pow256_eq (k : Nat) : (256 : Nat) ^ k = 2 ^ (8 * k) := by
  rw [Nat.pow_mul]

/-- C9: `CompactToBig` returns sign × shifted mantissa exactly as the
reference encoding prescribes: mantissa = low 23 bits, sign = bit 23,
exponent = top 8 bits as a byte count base 256, right-shifting (truncating)
by `8×(3−exponent)` bits when the exponent is at most 3, left-shifting by
`8×(exponent−3)` bits otherwise, and negating exactly when the sign bit is
set. -/
theorem CompactToBig_matches_spec (compact : Nat) :
    CompactToBig compact = CompactToBigSpec compact := by
  unfold CompactToBig CompactToBigSpec
  dsimp only
  have hmask : compact &&& 0x007fffff = compact % 2 ^ 23 := by
    have h := Nat.and_pow_two_sub_one_eq_mod compact 23
    norm_num at h ⊢
    exact h
  have hbit : compact &&& 0x00800000 = (compact.testBit 23).toNat * 2 ^ 23 := by
    have h := Nat.and_two_pow compact 23
    norm_num at h ⊢
    exact h
  have hsign : (compact &&& 0x00800000 ≠ 0) ↔ (compact / 2 ^ 23 % 2 = 1) := by
    rw [hbit, Nat.testBit_to_div_mod]
    by_cases hb : compact / 2 ^ 23 % 2 = 1 <;> simp [hb]
  have hexp : compact >>> 24 = compact / 2 ^ 24 := Nat.shiftRight_eq_div_pow _ _
  have hshr : ∀ (m k : Nat), m >>> (8 * k) = m / 256 ^ k := by
    intro m k; rw [Nat.shiftRight_eq_div_pow, pow256_eq]
  have hshl : ∀ (m k : Nat), m <<< (8 * k) = m * 256 ^ k := by
    intro m k; rw [Nat.shiftLeft_eq, pow256_eq]
  rw [hmask, hexp, hshr, hshl]
  by_cases hneg : compact &&& 0x00800000 ≠ 0
  · rw [if_pos hneg, if_pos (hsign.mp hneg)]
    split <;> ring
  · rw [if_neg hneg, if_neg (fun hs => hneg (hsign.mpr hs))]
    split <;> ring

/-- C8: `CheckProofOfWork` returns an error exactly when the decoded target
is nonpositive, or the target exceeds `PowLimit` (the highest 256-bit value
with the top bit clear), or the byte-reversed big-endian reading of the
merged-mining auxiliary block hash exceeds the target; being a pure function
of the header it mutates nothing. -/
theorem CheckProofOfWork_error_iff (header : PowHeader) :
    (∃ e, CheckProofOfWork header = .error e) ↔
      (CompactToBig header.bits ≤ 0 ∨
       PowLimit < CompactToBig header.bits ∨
       CompactToBig header.bits < (HashToBig header.auxParBlockHash : Int)) := by
  unfold CheckProofOfWork
  dsimp only
  split_ifs with h1 h2 h3 <;> simp_all

/-- C2: with a readable tip, `CommitBlock` runs the rollback-to-fork-point
algorithm targeted at `header.previous` exactly when the incoming header's
height is strictly below the tip height; at equal or greater height no
rollback happens and the commit phase starts from the untouched chain state. -/
theorem CommitBlock_rollback_iff (fs : FailSpec) (bc : Blockchain)
    (header : Header) (proof : BlockProof) (txns : List Transaction)
    (tip : Header) (htip : bc.headers.head? = some tip) :
    (header.height < tip.height →
       CommitBlock fs bc header proof txns =
         match rollbackTo fs header.previous bc with
         | (.error e, bc') => (.error e, bc')
         | (.ok (), bc') => commitAfterRollback fs bc' header proof txns) ∧
    (tip.height ≤ header.height →
       CommitBlock fs bc header proof txns =
         commitAfterRollback fs bc header proof txns) := by
  unfold CommitBlock
  rw [htip]
  dsimp only
  refine ⟨fun h => ?_, fun h => ?_⟩
  · rw [if_pos h]
  · rw [if_neg (by omega)]

/-- Witness for C2 at a concrete chain: a tip of height 5 and an incoming
header of height 5 (a competing block at equal height) trigger no rollback. -/
theorem CommitBlock_rollback_iff_witness :
    (Blockchain.mk [⟨5, 0, 50⟩] ⟨[], [], [], [], [], 5⟩ []).headers.head? =
        some ⟨5, 0, 50⟩ ∧
      CommitBlock noFail (Blockchain.mk [⟨5, 0, 50⟩] ⟨[], [], [], [], [], 5⟩ [])
          ⟨5, 44, 51⟩ 7 [] =
        commitAfterRollback noFail
          (Blockchain.mk [⟨5, 0, 50⟩] ⟨[], [], [], [], [], 5⟩ [])
          ⟨5, 44, 51⟩ 7 [] :=
  ⟨rfl,
    (CommitBlock_rollback_iff noFail
        (Blockchain.mk [⟨5, 0, 50⟩] ⟨[], [], [], [], [], 5⟩ [])
        ⟨5, 44, 51⟩ 7 [] ⟨5, 0, 50⟩ rfl).2 (by decide)⟩

/-- C6: evaluation of the duplicate-group path of `StartBlockTxsRequest` at
a concrete state (an outstanding group for block hash 2, group lock free on
entry): the maps, channels and finished pool are all left as on entry, but
the call returns with the group lock still held — the early-return path
skips the unlock — so the lock status is not as on entry. -/
theorem StartBlockTxsRequest_dup_leaves_lock_held :
    StartBlockTxsRequest 2 [9]
        (QState.mk [] [] [2] [] [(2, [7])] [(7, 2)] false []) =
      QState.mk [] [] [2] [] [(2, [7])] [(7, 2)] true [] ∧
    (QState.mk [] [] [2] [] [(2, [7])] [(7, 2)] false []).txsLockHeld = false := by
  exact ⟨by decide, rfl⟩

/-- C5 counterexample: transaction 7 is in flight (its group for block 2 is
pending and its id-to-block mapping exists) when `Clear` is called; its
later delivery via `OnTxReceived` returns an error, not nil — `Clear` leaves
the id-to-block map populated while removing the group, so the delivery hits
the missing-group error path. -/
theorem OnTxReceived_after_clear_counterexample :
    ((QState.mk [] [] [2] [] [(2, [7])] [(7, 2)] false []).blockTxs.lookup 7 =
        some 2) ∧
    ((QState.mk [] [] [2] [] [(2, [7])] [(7, 2)] false []).blockTxsRequests.lookup 2 =
        some [7]) ∧
    (OnTxReceived 7
        (ClearQ (QState.mk [] [] [2] [] [(2, [7])] [(7, 2)] false []))).1 =
      Except.error "Request not exist" := by
  exact ⟨by decide, by decide, rfl⟩

/-- C5 amended: a delivery after `Clear()` of a transaction that was still
mapped in the id-to-block map is not benign — `Clear` does not clear that
map, so `OnTxReceived` finds the mapping, fails to find the (cleared) group
and returns the missing-group error; only a transaction absent from the
id-to-block map is logged, ignored and answered with nil. -/
theorem OnTxReceived_after_clear_spec (s : QState) (t bh : Hash) :
    (s.blockTxs.lookup t = some bh →
       (OnTxReceived t (ClearQ s)).1 = Except.error "Request not exist") ∧
    (s.blockTxs.lookup t = none →
       OnTxReceived t s = (Except.ok (), s)) := by
  constructor
  · intro h
    unfold OnTxReceived ClearQ
    dsimp only
    rw [h]
    rfl
  · intro h
    unfold OnTxReceived
    rw [h]

/-- Witness for C5's amended claim at the counterexample state and at a
state with no mapping for the delivered transaction. -/
theorem OnTxReceived_after_clear_spec_witness :
    ((QState.mk [] [] [2] [] [(2, [7])] [(7, 2)] false []).blockTxs.lookup 7 =
        some 2 ∧
      (OnTxReceived 7
          (ClearQ (QState.mk [] [] [2] [] [(2, [7])] [(7, 2)] false []))).1 =
        Except.error "Request not exist") ∧
    (initQState.blockTxs.lookup 9 = none ∧
      OnTxReceived 9 initQState = (Except.ok (), initQState)) :=
  ⟨⟨by decide,
      (OnTxReceived_after_clear_spec
          (QState.mk [] [] [2] [] [(2, [7])] [(7, 2)] false []) 7 2).1 (by decide)⟩,
    ⟨by decide,
      (OnTxReceived_after_clear_spec initQState 9 0).2 (by decide)⟩⟩


theorem locatorLoop_length (chain : List Hash) :
    ∀ (fuel pos step start : Nat),
      (locatorLoop chain pos step start fuel).length ≤ fuel := by
  intro fuel
  induction fuel with
  | zero => intro pos step start; simp [locatorLoop]
  | succ fuel ih =>
    intro pos step start
    unfold locatorLoop
    dsimp only
    cases hget : chain.get? pos with
    | none => simp
    | some h =>
      simp only [List.length_cons, Nat.add_le_add_iff_right]
      set stp := if 9 ≤ start then 2 * step else step with hstp
      by_cases hfuel : fuel = 0
      · simp [hfuel]
      · rw [if_neg hfuel]
        by_cases hlen : chain.length ≤ pos + stp
        · simp [hlen]
        · rw [if_neg hlen]
          exact ih _ _ _

theorem locatorLoop_sublist (chain : List Hash) :
    ∀ (fuel pos step start : Nat), 1 ≤ step →
      List.Sublist (locatorLoop chain pos step start fuel) (chain.drop pos) := by
  intro fuel
  induction fuel with
  | zero => intro pos step start _; simp [locatorLoop]
  | succ fuel ih =>
    intro pos step start hstep
    unfold locatorLoop
    dsimp only
    cases hget : chain.get? pos with
    | none => simp
    | some h =>
      rw [List.get?_eq_getElem?, List.getElem?_eq_some_iff] at hget
      obtain ⟨hlt, hval⟩ := hget
      have hdrop : chain.drop pos = h :: chain.drop (pos + 1) := by
        rw [List.drop_eq_getElem_cons hlt, hval]
      rw [hdrop]
      set stp := if 9 ≤ start then 2 * step else step with hstp
      have hstep' : 1 ≤ stp := by rw [hstp]; split <;> omega
      refine List.Sublist.cons₂ h ?_
      by_cases hfuel : fuel = 0
      · simp [hfuel]
      · rw [if_neg hfuel]
        by_cases hlen : chain.length ≤ pos + stp
        · simp [hlen]
        · rw [if_neg hlen]
          have hrec := ih (pos + stp) stp ((if 9 ≤ start then 0 else start) + 1) hstep'
          refine hrec.trans ?_
          have heq : chain.drop (pos + stp) =
              (chain.drop (pos + 1)).drop (stp - 1) := by
            rw [List.drop_drop]
            congr 1
            omega
          rw [heq]
          exact List.drop_sublist _ _

theorem GetBlockLocatorHashes_sublist (chain : List Hash) :
    List.Sublist (GetBlockLocatorHashes chain) chain := by
  cases chain with
  | nil => simp [GetBlockLocatorHashes]
  | cons h t =>
    have := locatorLoop_sublist (h :: t) MaxBlockLocatorHashes 0 1 0 (by omega)
    simpa [GetBlockLocatorHashes] using this

/-- C7: the block locator of an empty chain is empty; otherwise it starts
with the tip hash, holds at most 200 entries, walks strictly backward along
the chain (it is a sublist of the tip-first chain, so the step-doubling walk
only moves toward the start and stops on walking off it), and — as chains
keyed by hash have pairwise-distinct hashes — repeats no hash. -/
theorem GetBlockLocatorHashes_spec (chain : List Hash) :
    (chain = [] → GetBlockLocatorHashes chain = []) ∧
    (GetBlockLocatorHashes chain).head? = chain.head? ∧
    (GetBlockLocatorHashes chain).length ≤ MaxBlockLocatorHashes ∧
    List.Sublist (GetBlockLocatorHashes chain) chain ∧
    (chain.Nodup → (GetBlockLocatorHashes chain).Nodup) := by
  refine ⟨fun hc => by subst hc; rfl, ?_, ?_, GetBlockLocatorHashes_sublist chain,
    fun hnd => List.Nodup.sublist (GetBlockLocatorHashes_sublist chain) hnd⟩
  · cases chain with
    | nil => rfl
    | cons h t =>
      show (locatorLoop (h :: t) 0 1 0 MaxBlockLocatorHashes).head? = some h
      have h200 : MaxBlockLocatorHashes = 199 + 1 := rfl
      rw [h200]
      unfold locatorLoop
      rfl
  · cases chain with
    | nil => simp [GetBlockLocatorHashes]
    | cons h t => exact locatorLoop_length (h :: t) MaxBlockLocatorHashes 0 1 0

/-- Witness for C7 at the empty chain and at a concrete three-block chain. -/
theorem GetBlockLocatorHashes_spec_witness :
    GetBlockLocatorHashes ([] : List Hash) = [] ∧
    (GetBlockLocatorHashes [5, 4, 3]).head? = some 5 ∧
    (GetBlockLocatorHashes [5, 4, 3]).Nodup :=
  ⟨(GetBlockLocatorHashes_spec []).1 rfl,
    by exact (GetBlockLocatorHashes_spec [5, 4, 3]).2.1,
    (GetBlockLocatorHashes_spec [5, 4, 3]).2.2.2.2 (by decide)⟩

theorem rollbackToAux_never_fork (fs : FailSpec) (forkPoint : Hash) :
    ∀ (hs : List Header) (ds : DataStore) (evs : List Event),
      (∀ h ∈ hs, h.previous ≠ forkPoint) →
      ∃ e, (rollbackToAux fs forkPoint hs ds evs).1 = Except.error e := by
  intro hs
  induction hs with
  | nil => intro ds evs _; exact ⟨"headers store exhausted", rfl⟩
  | cons removed rest ih =>
    intro ds evs hno
    unfold rollbackToAux
    dsimp only
    by_cases hfail : fs.dsRollbackFails removed.height
    · rw [if_pos hfail]
      exact ⟨"rollback database failed", rfl⟩
    · rw [if_neg hfail,
        if_neg (hno removed (List.mem_cons_self removed rest))]
      exact ih _ _ (fun h hm => hno h (List.mem_cons_of_mem removed hm))

theorem rollbackToAux_ok (fs : FailSpec) (forkPoint : Hash) :
    ∀ (hs : List Header) (ds : DataStore) (evs : List Event),
      (rollbackToAux fs forkPoint hs ds evs).1 = Except.ok () →
      ∃ removed ∈ hs, removed.previous = forkPoint ∧
        (rollbackToAux fs forkPoint hs ds evs).2.2.1.chainHeight =
          removed.height - 1 := by
  intro hs
  induction hs with
  | nil => intro ds evs hok; exact absurd hok (by simp [rollbackToAux])
  | cons removed rest ih =>
    intro ds evs hok
    unfold rollbackToAux at hok ⊢
    dsimp only at hok ⊢
    by_cases hfail : fs.dsRollbackFails removed.height
    · rw [if_pos hfail] at hok
      exact absurd hok (by simp)
    · rw [if_neg hfail] at hok ⊢
      by_cases hfp : removed.previous = forkPoint
      · rw [if_pos hfp] at hok ⊢
        exact ⟨removed, List.mem_cons_self removed rest, hfp, rfl⟩
      · rw [if_neg hfp] at hok ⊢
        obtain ⟨r, hm, hprev, hheight⟩ := ih _ _ hok
        exact ⟨r, List.mem_cons_of_mem removed hm, hprev, hheight⟩

/-- C3: `rollbackTo` terminates (the model is a total structural recursion
over the headers store): it pops tips and rolls back the datastore at each
popped height until the popped header's previous hash equals the fork point,
at which moment it persists chain height `removedHeight − 1` and returns ok;
when no stored header's previous hash is the fork point it cannot succeed —
the drained headers store (or a datastore failure on the way) surfaces as a
returned error rather than an infinite loop. -/
theorem rollbackTo_spec (fs : FailSpec) (forkPoint : Hash) (bc : Blockchain) :
    ((∀ h ∈ bc.headers, h.previous ≠ forkPoint) →
       ∃ e, (rollbackTo fs forkPoint bc).1 = Except.error e) ∧
    (∀ bc', rollbackTo fs forkPoint bc = (Except.ok (), bc') →
       ∃ removed ∈ bc.headers, removed.previous = forkPoint ∧
         bc'.ds.chainHeight = removed.height - 1) := by
  constructor
  · intro hno
    obtain ⟨e, he⟩ := rollbackToAux_never_fork fs forkPoint bc.headers bc.ds bc.events hno
    refine ⟨e, ?_⟩
    unfold rollbackTo
    rw [show (rollbackToAux fs forkPoint bc.headers bc.ds bc.events) =
      ((rollbackToAux fs forkPoint bc.headers bc.ds bc.events).1,
       (rollbackToAux fs forkPoint bc.headers bc.ds bc.events).2.1,
       (rollbackToAux fs forkPoint bc.headers bc.ds bc.events).2.2.1,
       (rollbackToAux fs forkPoint bc.headers bc.ds bc.events).2.2.2) from rfl]
    exact he
  · intro bc' hok
    unfold rollbackTo at hok
    rw [show (rollbackToAux fs forkPoint bc.headers bc.ds bc.events) =
      ((rollbackToAux fs forkPoint bc.headers bc.ds bc.events).1,
       (rollbackToAux fs forkPoint bc.headers bc.ds bc.events).2.1,
       (rollbackToAux fs forkPoint bc.headers bc.ds bc.events).2.2.1,
       (rollbackToAux fs forkPoint bc.headers bc.ds bc.events).2.2.2) from rfl] at hok
    have h1 : (rollbackToAux fs forkPoint bc.headers bc.ds bc.events).1 =
        Except.ok () := by
      have := congrArg Prod.fst hok
      simpa using this
    obtain ⟨r, hm, hprev, hheight⟩ :=
      rollbackToAux_ok fs forkPoint bc.headers bc.ds bc.events h1
    refine ⟨r, hm, hprev, ?_⟩
    have h2 : bc'.ds =
        (rollbackToAux fs forkPoint bc.headers bc.ds bc.events).2.2.1 := by
      have := congrArg (fun p => p.2.ds) hok
      simpa using this.symm
    rw [h2]
    exact hheight

/-- Witness for C3: a two-header chain with no matching fork point yields an
error; with fork point 8 (the previous hash of the lowest header) the
rollback succeeds and records chain height 0 = 1 − 1. -/
theorem rollbackTo_spec_witness :
    (∃ e, (rollbackTo noFail 5
        ⟨[⟨2, 9, 12⟩, ⟨1, 8, 9⟩], ⟨[], [], [], [], [], 2⟩, []⟩).1 =
      Except.error e) ∧
    (∃ removed ∈ [(⟨2, 9, 12⟩ : Header), ⟨1, 8, 9⟩], removed.previous = 8 ∧
      (Blockchain.mk [] ⟨[], [], [], [], [], 0⟩
          [Event.rollback 1, Event.rollback 2]).ds.chainHeight =
        removed.height - 1) :=
  ⟨(rollbackTo_spec noFail 5
      ⟨[⟨2, 9, 12⟩, ⟨1, 8, 9⟩], ⟨[], [], [], [], [], 2⟩, []⟩).1 (by decide),
   (rollbackTo_spec noFail 8
      ⟨[⟨2, 9, 12⟩, ⟨1, 8, 9⟩], ⟨[], [], [], [], [], 2⟩, []⟩).2
     ⟨[], ⟨[], [], [], [], [], 0⟩, [Event.rollback 1, Event.rollback 2]⟩ rfl⟩

theorem putOutputs_no_hits (fs : FailSpec) (txId : Hash) (txType : TxType)
    (height : Nat) :
    ∀ (outs : List Output) (index : Nat) (ds : DataStore) (hits : Nat),
      (∀ o ∈ outs, o.programHash ∉ ds.addrFilter) →
      putOutputs fs txId txType height outs index ds hits = (.ok (), ds, hits) := by
  intro outs
  induction outs with
  | nil => intro index ds hits _; rfl
  | cons o rest ih =>
    intro index ds hits hno
    unfold putOutputs
    rw [if_neg (hno o (List.mem_cons_self o rest))]
    exact ih _ _ _ (fun x hx => hno x (List.mem_cons_of_mem o hx))

theorem putInputs_no_hits (txId : Hash) (height : Nat) :
    ∀ (ins : List Input) (ds : DataStore) (hits : Nat),
      (∀ i ∈ ins, ∀ p ∈ ds.utxos,
        p.2.op ≠ OutPoint.mk i.referTxID i.referTxOutputIndex) →
      putInputs txId height ins ds hits = (ds, hits) := by
  intro ins
  induction ins with
  | nil => intro ds hits _; rfl
  | cons i rest ih =>
    intro ds hits hno
    unfold putInputs
    have hfind : ds.utxos.find?
        (fun p => decide (p.2.op = OutPoint.mk i.referTxID i.referTxOutputIndex)) =
          none := by
      rw [List.find?_eq_none]
      intro p hp
      simpa using hno i (List.mem_cons_self i rest) p hp
    unfold fromUTXO
    rw [hfind]
    exact ih _ _ (fun x hx => hno x (List.mem_cons_of_mem i hx))


theorem putInputs_hits_mono (txId : Hash) (height : Nat) :
    ∀ (ins : List Input) (ds : DataStore) (hits : Nat),
      hits ≤ (putInputs txId height ins ds hits).2 := by
  intro ins
  induction ins with
  | nil => intro ds hits; exact le_refl _
  | cons i rest ih =>
    intro ds hits
    unfold putInputs
    cases hf : fromUTXO ⟨i.referTxID, i.referTxOutputIndex⟩ txId height ds with
    | ok ds' => exact le_trans (Nat.le_succ hits) (ih ds' (hits + 1))
    | error _ => exact ih ds hits

theorem putOutputs_hits_mono (fs : FailSpec) (txId : Hash) (txType : TxType)
    (height : Nat) :
    ∀ (outs : List Output) (index : Nat) (ds : DataStore) (hits : Nat),
      hits ≤ (putOutputs fs txId txType height outs index ds hits).2.2 := by
  intro outs
  induction outs with
  | nil => intro index ds hits; exact le_refl _
  | cons o rest ih =>
    intro index ds hits
    unfold putOutputs
    by_cases hin : o.programHash ∈ ds.addrFilter
    · rw [if_pos hin]
      cases hput : utxoPut fs o.programHash
          (ToUTXO txId height index o.value (lockTimeOf txType height)) ds with
      | error e => exact le_refl _
      | ok ds' => exact le_trans (Nat.le_succ hits) (ih _ _ _)
    · rw [if_neg hin]
      exact ih _ _ _

theorem utxoPut_fields (fs : FailSpec) (addr : Addr) (u : UTXO)
    (ds ds' : DataStore) (h : utxoPut fs addr u ds = Except.ok ds') :
    ds'.addrFilter = ds.addrFilter ∧ ds'.proofs = ds.proofs ∧
      ds'.chainHeight = ds.chainHeight := by
  unfold utxoPut at h
  by_cases hf : fs.utxoPutFails addr u
  · rw [if_pos hf] at h; cases h
  · rw [if_neg hf] at h
    cases h
    exact ⟨rfl, rfl, rfl⟩

theorem putOutputs_addrFilter (fs : FailSpec) (txId : Hash) (txType : TxType)
    (height : Nat) :
    ∀ (outs : List Output) (index : Nat) (ds : DataStore) (hits : Nat),
      (putOutputs fs txId txType height outs index ds hits).2.1.addrFilter =
        ds.addrFilter := by
  intro outs
  induction outs with
  | nil => intro index ds hits; rfl
  | cons o rest ih =>
    intro index ds hits
    unfold putOutputs
    by_cases hin : o.programHash ∈ ds.addrFilter
    · rw [if_pos hin]
      cases hput : utxoPut fs o.programHash
          (ToUTXO txId height index o.value (lockTimeOf txType height)) ds with
      | error e => rfl
      | ok ds' => rw [ih _ _ _, (utxoPut_fields fs _ _ _ _ hput).1]
    · rw [if_neg hin]
      exact ih _ _ _

theorem putOutputs_output_hit (fs : FailSpec) (txId : Hash) (txType : TxType)
    (height : Nat) :
    ∀ (outs : List Output) (index : Nat) (ds : DataStore) (hits : Nat)
      (ds1 : DataStore) (hits1 : Nat),
      (∃ o ∈ outs, o.programHash ∈ ds.addrFilter) →
      putOutputs fs txId txType height outs index ds hits = (.ok (), ds1, hits1) →
      hits + 1 ≤ hits1 := by
  intro outs
  induction outs with
  | nil => intro index ds hits ds1 hits1 hex _; simp at hex
  | cons o rest ih =>
    intro index ds hits ds1 hits1 hex heq
    unfold putOutputs at heq
    by_cases hin : o.programHash ∈ ds.addrFilter
    · rw [if_pos hin] at heq
      split at heq
      · simp at heq
      · rename_i ds' hput
        have hm := putOutputs_hits_mono fs txId txType height rest (index + 1) ds' (hits + 1)
        rw [heq] at hm
        exact hm
    · rw [if_neg hin] at heq
      obtain ⟨o', ho', hin'⟩ := hex
      rcases List.mem_cons.mp ho' with h | h
      · rw [h] at hin'; exact absurd hin' hin
      · exact ih _ _ _ _ _ ⟨o', h, hin'⟩ heq

theorem putInputs_input_hit (txId : Hash) (height : Nat) :
    ∀ (ins : List Input) (ds : DataStore) (hits : Nat),
      (∃ i ∈ ins, ∃ p ∈ ds.utxos,
        p.2.op = OutPoint.mk i.referTxID i.referTxOutputIndex) →
      hits + 1 ≤ (putInputs txId height ins ds hits).2 := by
  intro ins
  induction ins with
  | nil => intro ds hits hex; simp at hex
  | cons i rest ih =>
    intro ds hits hex
    unfold putInputs
    cases hf : fromUTXO ⟨i.referTxID, i.referTxOutputIndex⟩ txId height ds with
    | ok ds' => exact putInputs_hits_mono txId height rest ds' (hits + 1)
    | error e =>
      obtain ⟨i', hi', p, hp, hop⟩ := hex
      rcases List.mem_cons.mp hi' with h | h
      · rw [h] at hop
        unfold fromUTXO at hf
        cases hfind : ds.utxos.find?
            (fun q => decide (q.2.op = OutPoint.mk i.referTxID i.referTxOutputIndex)) with
        | some q =>
          rw [hfind] at hf
          exact absurd hf (by cases q; simp)
        | none =>
          rw [List.find?_eq_none] at hfind
          exact absurd hop (by simpa using hfind p hp)
      · exact ih ds hits ⟨i', h, p, hp, hop⟩

theorem zeroHitB_iff (ds : DataStore) (txn : Transaction) :
    zeroHitB ds txn = true ↔
      ((∀ o ∈ txn.outputs, o.programHash ∉ ds.addrFilter) ∧
       (∀ i ∈ txn.inputs, ∀ p ∈ ds.utxos,
         p.2.op ≠ OutPoint.mk i.referTxID i.referTxOutputIndex)) := by
  simp [zeroHitB, List.all_eq_true]

theorem commitTxn_zero_hit (fs : FailSpec) (h : Nat) (txn : Transaction)
    (ds : DataStore) (evs : List Event) (hz : zeroHitB ds txn = true) :
    commitTxn fs h txn ds evs = (.ok true, ds, evs) := by
  obtain ⟨hout, hin⟩ := (zeroHitB_iff ds txn).mp hz
  simp only [commitTxn,
    putOutputs_no_hits fs txn.hash txn.txType h txn.outputs 0 ds 0 hout,
    putInputs_no_hits txn.hash h txn.inputs ds 0 hin]
  simp

theorem commitTxn_ok_imp (fs : FailSpec) (h : Nat) (txn : Transaction)
    (ds : DataStore) (evs : List Event) (b : Bool) (ds' : DataStore)
    (evs' : List Event)
    (heq : commitTxn fs h txn ds evs = (.ok b, ds', evs')) :
    b = zeroHitB ds txn := by
  by_cases hz : zeroHitB ds txn = true
  · rw [commitTxn_zero_hit fs h txn ds evs hz] at heq
    simp only [Prod.mk.injEq, Except.ok.injEq] at heq
    rw [hz, ← heq.1]
  · have hzf : zeroHitB ds txn = false := by
      rw [Bool.not_eq_true] at hz; exact hz
    rw [hzf]
    unfold commitTxn at heq
    dsimp only at heq
    split at heq
    · simp at heq
    · rename_i ds1 hits1 hpo
      split at heq
      · rename_i hr0
        exfalso
        by_cases hA : ∀ o ∈ txn.outputs, o.programHash ∉ ds.addrFilter
        · have hpo' := putOutputs_no_hits fs txn.hash txn.txType h txn.outputs 0 ds 0 hA
          rw [hpo'] at hpo
          simp only [Prod.mk.injEq] at hpo
          obtain ⟨hds1, hh1⟩ := hpo.2
          have hB : ¬(∀ i ∈ txn.inputs, ∀ p ∈ ds.utxos,
              p.2.op ≠ OutPoint.mk i.referTxID i.referTxOutputIndex) := by
            intro hB
            have hzt : zeroHitB ds txn = true := (zeroHitB_iff ds txn).mpr ⟨hA, hB⟩
            rw [hzf] at hzt
            cases hzt
          push_neg at hB
          obtain ⟨i, hi, p, hp, hope⟩ := hB
          have hone := putInputs_input_hit txn.hash h txn.inputs ds 0 ⟨i, hi, p, hp, hope⟩
          rw [← hds1, ← hh1] at hr0
          omega
        · push_neg at hA
          obtain ⟨o, ho, hino⟩ := hA
          have h1 := putOutputs_output_hit fs txn.hash txn.txType h txn.outputs 0 ds 0
            ds1 hits1 ⟨o, ho, hino⟩ hpo
          have h2 := putInputs_hits_mono txn.hash h txn.inputs ds1 hits1
          omega
      · rename_i hrne
        split at heq
        · simp at heq
        · simp only [Prod.mk.injEq, Except.ok.injEq] at heq
          exact heq.1.symm

theorem commitTxns_count (fs : FailSpec) (h : Nat) :
    ∀ (ts : List Transaction) (ds : DataStore) (evs : List Event)
      (acc n : Nat) (ds' : DataStore) (evs' : List Event),
      commitTxns fs h ts ds evs acc = (.ok n, ds', evs') →
      n = acc + zeroHitCount fs h ts ds evs := by
  intro ts
  induction ts with
  | nil =>
    intro ds evs acc n ds' evs' heq
    simp only [commitTxns, Prod.mk.injEq, Except.ok.injEq] at heq
    simp [zeroHitCount, ← heq.1]
  | cons t rest ih =>
    intro ds evs acc n ds' evs' heq
    unfold commitTxns at heq
    split at heq
    · simp at heq
    · rename_i fp ds1 evs1 hct
      have hb := commitTxn_ok_imp fs h t ds evs fp ds1 evs1 hct
      have hn := ih ds1 evs1 (if fp then acc + 1 else acc) n ds' evs' heq
      unfold zeroHitCount
      rw [hct]
      dsimp only
      rw [← hb]
      cases fp <;> simp at hn ⊢ <;> omega

/-- C1: a transaction with zero hits — no output address in the
watched-address filter and no input outpoint matching a stored UTXO — is a
pure false positive: the per-transaction commit (the algorithm shared by
`CommitBlock` and `CommitUnconfirmedTxn`) returns ok true while leaving the
datastore (UTXO/STXO sets and Txn records) and the callback trace exactly as
they were; and a successful `CommitBlock` (stated for the non-reorganize
case, where the processed store is the entry store) returns exactly the
number of transactions that were zero-hit at their point of processing. -/
theorem commitTxn_false_positive_spec (fs : FailSpec) (height : Nat)
    (txn : Transaction) (ds : DataStore) (evs : List Event) (bc : Blockchain)
    (tip header : Header) (proof : BlockProof) (txns : List Transaction)
    (n : Nat) (bc' : Blockchain) :
    ((∀ o ∈ txn.outputs, o.programHash ∉ ds.addrFilter) →
     (∀ i ∈ txn.inputs, ∀ p ∈ ds.utxos,
        p.2.op ≠ OutPoint.mk i.referTxID i.referTxOutputIndex) →
     commitTxn fs height txn ds evs = (.ok true, ds, evs)) ∧
    (bc.headers.head? = some tip → tip.height ≤ header.height →
     CommitBlock fs bc header proof txns = (.ok n, bc') →
     n = zeroHitCount fs header.height txns bc.ds bc.events) := by
  constructor
  · intro hout hin
    exact commitTxn_zero_hit fs height txn ds evs
      ((zeroHitB_iff ds txn).mpr ⟨hout, hin⟩)
  · intro htip hge heq
    unfold CommitBlock at heq
    rw [htip] at heq
    dsimp only at heq
    rw [if_neg (by omega)] at heq
    unfold commitAfterRollback at heq
    split at heq
    · simp at heq
    · rename_i fps ds1 evs1 hcts
      split at heq
      · simp at heq
      · dsimp only at heq
        split at heq
        · simp at heq
        · simp only [Prod.mk.injEq, Except.ok.injEq] at heq
          have hc := commitTxns_count fs header.height txns bc.ds bc.events
            0 fps ds1 evs1 hcts
          rw [← heq.1]
          simpa using hc

/-- Witness for C1: a transaction paying an unwatched address and spending
an unknown outpoint commits as a false positive leaving the store untouched,
and a one-transaction block of that shape commits with count 1. -/
theorem commitTxn_false_positive_spec_witness :
    commitTxn noFail 3
        ⟨TxType.regular, [⟨9, 4⟩], [⟨1, 0⟩], 77⟩ ⟨[2], [], [], [], [], 0⟩ [] =
      (Except.ok true, ⟨[2], [], [], [], [], 0⟩, []) ∧
    (1 : Nat) = zeroHitCount noFail 1
        [⟨TxType.regular, [⟨9, 4⟩], [⟨1, 0⟩], 77⟩] ⟨[2], [], [], [], [], 0⟩ [] :=
  ⟨(commitTxn_false_positive_spec noFail 3
      ⟨TxType.regular, [⟨9, 4⟩], [⟨1, 0⟩], 77⟩ ⟨[2], [], [], [], [], 0⟩ []
      ⟨[], ⟨[], [], [], [], [], 0⟩, []⟩ ⟨0, 0, 0⟩ ⟨0, 0, 0⟩ 0 [] 0
      ⟨[], ⟨[], [], [], [], [], 0⟩, []⟩).1 (by decide) (by decide),
   (commitTxn_false_positive_spec noFail 0
      ⟨TxType.regular, [], [], 0⟩ ⟨[], [], [], [], [], 0⟩ []
      ⟨[⟨0, 0, 10⟩], ⟨[2], [], [], [], [], 0⟩, []⟩ ⟨0, 0, 10⟩ ⟨1, 10, 11⟩ 7
      [⟨TxType.regular, [⟨9, 4⟩], [⟨1, 0⟩], 77⟩] 1
      ⟨[⟨1, 10, 11⟩, ⟨0, 0, 10⟩], ⟨[2], [], [], [], [7], 1⟩,
        [Event.blockCommit ⟨1, 10, 11⟩ 7
          [⟨TxType.regular, [⟨9, 4⟩], [⟨1, 0⟩], 77⟩]]⟩).2 rfl (by decide) rfl⟩

theorem fromUTXO_frame (op : OutPoint) (spendTxId : Hash) (spendHeight : Nat)
    (ds ds' : DataStore)
    (h : fromUTXO op spendTxId spendHeight ds = Except.ok ds') :
    ds'.proofs = ds.proofs ∧ ds'.chainHeight = ds.chainHeight := by
  unfold fromUTXO at h
  cases hfind : ds.utxos.find? (fun p => decide (p.2.op = op)) with
  | none => rw [hfind] at h; cases h
  | some q =>
    rw [hfind] at h
    cases q
    cases h
    exact ⟨rfl, rfl⟩

theorem putOutputs_frame (fs : FailSpec) (txId : Hash) (txType : TxType)
    (height : Nat) :
    ∀ (outs : List Output) (index : Nat) (ds : DataStore) (hits : Nat),
      (putOutputs fs txId txType height outs index ds hits).2.1.proofs =
          ds.proofs ∧
        (putOutputs fs txId txType height outs index ds hits).2.1.chainHeight =
          ds.chainHeight := by
  intro outs
  induction outs with
  | nil => intro index ds hits; exact ⟨rfl, rfl⟩
  | cons o rest ih =>
    intro index ds hits
    unfold putOutputs
    by_cases hin : o.programHash ∈ ds.addrFilter
    · rw [if_pos hin]
      cases hput : utxoPut fs o.programHash
          (ToUTXO txId height index o.value (lockTimeOf txType height)) ds with
      | error e => exact ⟨rfl, rfl⟩
      | ok ds' =>
        obtain ⟨-, hp, hc⟩ := utxoPut_fields fs _ _ _ _ hput
        obtain ⟨ihp, ihc⟩ := ih (index + 1) ds' (hits + 1)
        exact ⟨ihp.trans hp, ihc.trans hc⟩
    · rw [if_neg hin]
      exact ih _ _ _

theorem putInputs_frame (txId : Hash) (height : Nat) :
    ∀ (ins : List Input) (ds : DataStore) (hits : Nat),
      (putInputs txId height ins ds hits).1.proofs = ds.proofs ∧
        (putInputs txId height ins ds hits).1.chainHeight = ds.chainHeight := by
  intro ins
  induction ins with
  | nil => intro ds hits; exact ⟨rfl, rfl⟩
  | cons i rest ih =>
    intro ds hits
    unfold putInputs
    cases hf : fromUTXO ⟨i.referTxID, i.referTxOutputIndex⟩ txId height ds with
    | ok ds' =>
      obtain ⟨hp, hc⟩ := fromUTXO_frame _ _ _ _ _ hf
      obtain ⟨ihp, ihc⟩ := ih ds' (hits + 1)
      exact ⟨ihp.trans hp, ihc.trans hc⟩
    | error e => exact ih ds hits

theorem commitTxn_frame (fs : FailSpec) (h : Nat) (txn : Transaction)
    (ds : DataStore) (evs : List Event) :
    (commitTxn fs h txn ds evs).2.1.proofs = ds.proofs ∧
      (commitTxn fs h txn ds evs).2.1.chainHeight = ds.chainHeight := by
  unfold commitTxn
  dsimp only
  split
  · rename_i e ds1 x hpo
    have := putOutputs_frame fs txn.hash txn.txType h txn.outputs 0 ds 0
    rw [hpo] at this
    exact this
  · rename_i ds1 hits1 hpo
    have hpof := putOutputs_frame fs txn.hash txn.txType h txn.outputs 0 ds 0
    rw [hpo] at hpof
    have hpif := putInputs_frame txn.hash h txn.inputs ds1 hits1
    split
    · exact ⟨hpif.1.trans hpof.1, hpif.2.trans hpof.2⟩
    · split
      · exact ⟨hpif.1.trans hpof.1, hpif.2.trans hpof.2⟩
      · exact ⟨hpif.1.trans hpof.1, hpif.2.trans hpof.2⟩

theorem commitTxns_frame (fs : FailSpec) (h : Nat) :
    ∀ (ts : List Transaction) (ds : DataStore) (evs : List Event) (acc : Nat),
      (commitTxns fs h ts ds evs acc).2.1.proofs = ds.proofs ∧
        (commitTxns fs h ts ds evs acc).2.1.chainHeight = ds.chainHeight := by
  intro ts
  induction ts with
  | nil => intro ds evs acc; exact ⟨rfl, rfl⟩
  | cons t rest ih =>
    intro ds evs acc
    unfold commitTxns
    have hf := commitTxn_frame fs h t ds evs
    split
    · rename_i e ds1 evs1 hct
      rw [hct] at hf
      exact hf
    · rename_i fp ds1 evs1 hct
      rw [hct] at hf
      obtain ⟨ihp, ihc⟩ := ih ds1 evs1 (if fp then acc + 1 else acc)
      exact ⟨ihp.trans hf.1, ihc.trans hf.2⟩

/-- C10 counterexample: with a storage oracle failing only the header add,
`CommitBlock` of an empty block returns an error, yet the merkle proof has
already been persisted — contradicting the claim that on a header
persistence failure no merkle proof write occurs. -/
theorem CommitBlock_header_fail_counterexample :
    (CommitBlock
        ⟨fun _ _ => false, fun _ => false, fun _ => false,
          fun _ => true, fun _ => false⟩
        ⟨[⟨0, 0, 10⟩], ⟨[], [], [], [], [], 0⟩, []⟩ ⟨1, 10, 11⟩ 7 []).1 =
      Except.error "header add failed" ∧
    (CommitBlock
        ⟨fun _ _ => false, fun _ => false, fun _ => false,
          fun _ => true, fun _ => false⟩
        ⟨[⟨0, 0, 10⟩], ⟨[], [], [], [], [], 0⟩, []⟩ ⟨1, 10, 11⟩ 7 []).2.ds.proofs =
      [7] ∧
    (Blockchain.mk [⟨0, 0, 10⟩] ⟨[], [], [], [], [], 0⟩ []).ds.proofs = [] :=
  ⟨rfl, rfl, rfl⟩

/-- C10 amended: when `CommitBlock` (in the non-reorganize case) returns a
storage error, nothing is undone — the UTXO, STXO and Txn tables hold exactly
the partial state reached by the transaction loop at the failure — no header
and no chain-height update is written, and the proof table is unchanged
except that a failure at the header-add stage leaves the already-written
merkle proof persisted. -/
theorem CommitBlock_error_partial_persist (fs : FailSpec) (bc : Blockchain)
    (tip header : Header) (proof : BlockProof) (txns : List Transaction)
    (e : String) (bc' : Blockchain)
    (htip : bc.headers.head? = some tip) (hge : tip.height ≤ header.height)
    (heq : CommitBlock fs bc header proof txns = (.error e, bc')) :
    bc'.headers = bc.headers ∧
    bc'.ds.chainHeight = bc.ds.chainHeight ∧
    (bc'.ds.proofs = bc.ds.proofs ∨ bc'.ds.proofs = proof :: bc.ds.proofs) ∧
    bc'.ds.utxos =
      (commitTxns fs header.height txns bc.ds bc.events 0).2.1.utxos ∧
    bc'.ds.stxos =
      (commitTxns fs header.height txns bc.ds bc.events 0).2.1.stxos ∧
    bc'.ds.txnRecs =
      (commitTxns fs header.height txns bc.ds bc.events 0).2.1.txnRecs := by
  unfold CommitBlock at heq
  rw [htip] at heq
  dsimp only at heq
  rw [if_neg (by omega)] at heq
  unfold commitAfterRollback at heq
  split at heq
  · rename_i e1 ds1 evs1 hcts
    have hfr1 : ds1.proofs = bc.ds.proofs := by
      have hx := (commitTxns_frame fs header.height txns bc.ds bc.events 0).1
      rw [hcts] at hx
      exact hx
    have hfr2 : ds1.chainHeight = bc.ds.chainHeight := by
      have hx := (commitTxns_frame fs header.height txns bc.ds bc.events 0).2
      rw [hcts] at hx
      exact hx
    simp only [Prod.mk.injEq, Except.error.injEq] at heq
    rw [← heq.2, hcts]
    exact ⟨rfl, hfr2, Or.inl hfr1, rfl, rfl, rfl⟩
  · rename_i fps ds1 evs1 hcts
    have hfr1 : ds1.proofs = bc.ds.proofs := by
      have hx := (commitTxns_frame fs header.height txns bc.ds bc.events 0).1
      rw [hcts] at hx
      exact hx
    have hfr2 : ds1.chainHeight = bc.ds.chainHeight := by
      have hx := (commitTxns_frame fs header.height txns bc.ds bc.events 0).2
      rw [hcts] at hx
      exact hx
    split at heq
    · simp only [Prod.mk.injEq, Except.error.injEq] at heq
      rw [← heq.2, hcts]
      exact ⟨rfl, hfr2, Or.inl hfr1, rfl, rfl, rfl⟩
    · dsimp only at heq
      split at heq
      · simp only [Prod.mk.injEq, Except.error.injEq] at heq
        rw [← heq.2, hcts]
        refine ⟨rfl, hfr2, Or.inr ?_, rfl, rfl, rfl⟩
        show proof :: ds1.proofs = proof :: bc.ds.proofs
        rw [hfr1]
      · simp at heq

/-- Witness for C10's amended claim at the header-add-failure instance. -/
theorem CommitBlock_error_partial_persist_witness :
    (Blockchain.mk [⟨0, 0, 10⟩] ⟨[], [], [], [], [7], 0⟩ []).headers =
        (Blockchain.mk [⟨0, 0, 10⟩] ⟨[], [], [], [], [], 0⟩ []).headers ∧
    (Blockchain.mk [⟨0, 0, 10⟩] ⟨[], [], [], [], [7], 0⟩ []).ds.chainHeight =
        (Blockchain.mk [⟨0, 0, 10⟩] ⟨[], [], [], [], [], 0⟩ []).ds.chainHeight ∧
    ((Blockchain.mk [⟨0, 0, 10⟩] ⟨[], [], [], [], [7], 0⟩ []).ds.proofs =
        (Blockchain.mk [⟨0, 0, 10⟩] ⟨[], [], [], [], [], 0⟩ []).ds.proofs ∨
      (Blockchain.mk [⟨0, 0, 10⟩] ⟨[], [], [], [], [7], 0⟩ []).ds.proofs =
        7 :: (Blockchain.mk [⟨0, 0, 10⟩] ⟨[], [], [], [], [], 0⟩ []).ds.proofs) ∧
    (Blockchain.mk [⟨0, 0, 10⟩] ⟨[], [], [], [], [7], 0⟩ []).ds.utxos =
      (commitTxns
        ⟨fun _ _ => false, fun _ => false, fun _ => false,
          fun _ => true, fun _ => false⟩ 1 []
        (Blockchain.mk [⟨0, 0, 10⟩] ⟨[], [], [], [], [], 0⟩ []).ds [] 0).2.1.utxos ∧
    (Blockchain.mk [⟨0, 0, 10⟩] ⟨[], [], [], [], [7], 0⟩ []).ds.stxos =
      (commitTxns
        ⟨fun _ _ => false, fun _ => false, fun _ => false,
          fun _ => true, fun _ => false⟩ 1 []
        (Blockchain.mk [⟨0, 0, 10⟩] ⟨[], [], [], [], [], 0⟩ []).ds [] 0).2.1.stxos ∧
    (Blockchain.mk [⟨0, 0, 10⟩] ⟨[], [], [], [], [7], 0⟩ []).ds.txnRecs =
      (commitTxns
        ⟨fun _ _ => false, fun _ => false, fun _ => false,
          fun _ => true, fun _ => false⟩ 1 []
        (Blockchain.mk [⟨0, 0, 10⟩] ⟨[], [], [], [], [], 0⟩ []).ds [] 0).2.1.txnRecs :=
  CommitBlock_error_partial_persist
    ⟨fun _ _ => false, fun _ => false, fun _ => false,
      fun _ => true, fun _ => false⟩
    (Blockchain.mk [⟨0, 0, 10⟩] ⟨[], [], [], [], [], 0⟩ []) ⟨0, 0, 10⟩
    ⟨1, 10, 11⟩ 7 [] "header add failed"
    (Blockchain.mk [⟨0, 0, 10⟩] ⟨[], [], [], [], [7], 0⟩ []) rfl (by decide) rfl

theorem lookup_length_pos {β : Type} (l : List (Hash × β)) (a : Hash) (v : β)
    (h : l.lookup a = some v) : 0 < l.length := by
  cases l with
  | nil => cases h
  | cons p t => exact Nat.succ_pos _

theorem lookup_none_keys {β : Type} (l : List (Hash × β)) (a : Hash) :
    l.lookup a = none → ∀ p ∈ l, p.1 ≠ a := by
  induction l with
  | nil => intro _ p hp; cases hp
  | cons q t ih =>
    intro h p hp
    by_cases hk : q.1 = a
    · exfalso
      cases q with
      | mk k w =>
        simp only [List.lookup] at h
        rw [show (a == k) = true by simp [hk.symm]] at h
        cases h
    · cases List.mem_cons.mp hp with
      | inl he => rw [he]; exact hk
      | inr ht =>
        refine ih ?_ p ht
        cases q with
        | mk k w =>
          have hak : (a == k) = false := by
            rw [beq_eq_false_iff_ne]
            exact fun hh => hk hh.symm
          simp only [List.lookup, hak] at h
          exact h

theorem lookup_some_key_mem {β : Type} (l : List (Hash × β)) (a : Hash) (v : β)
    (h : l.lookup a = some v) : a ∈ l.map Prod.fst := by
  induction l with
  | nil => cases h
  | cons q t ih =>
    cases q with
    | mk k w =>
      simp only [List.lookup] at h
      by_cases hk : a = k
      · rw [hk]; exact List.mem_cons_self _ _
      · rw [show (a == k) = false by simp [hk]] at h
        exact List.mem_cons_of_mem _ (ih h)

theorem filter_ne_key_length {β : Type} (l : List (Hash × β)) (a : Hash) (v : β)
    (hnd : (l.map Prod.fst).Nodup) (h : l.lookup a = some v) :
    (l.filter (fun p => decide (p.1 ≠ a))).length = l.length - 1 := by
  induction l with
  | nil => cases h
  | cons q t ih =>
    cases q with
    | mk k w =>
      simp only [List.map_cons, List.nodup_cons] at hnd
      by_cases hk : k = a
      · have hfilter : t.filter (fun p => decide (p.1 ≠ a)) = t := by
          rw [List.filter_eq_self]
          rintro ⟨x, y⟩ hxy
          simp only [decide_eq_true_eq, ne_eq]
          intro hxa
          exact hnd.1 (by
            rw [hk, ← hxa]
            exact List.mem_map_of_mem Prod.fst hxy)
        rw [List.filter_cons, if_neg (by simp [hk]), hfilter]
        simp
      · have hak : (a == k) = false := by
          rw [beq_eq_false_iff_ne]
          exact fun hh => hk hh.symm
        simp only [List.lookup, hak] at h
        have hpos := lookup_length_pos t a v h
        have hlen := ih hnd.2 h
        rw [List.filter_cons, if_pos (by simp [hk])]
        simp only [List.length_cons, hlen]
        omega

theorem update_keys {β : Type} (l : List (Hash × β)) (bh : Hash) (g : β) :
    (l.map (fun p => if p.1 = bh then (bh, g) else p)).map Prod.fst =
      l.map Prod.fst := by
  induction l with
  | nil => rfl
  | cons p t ih =>
    simp only [List.map_cons, ih]
    congr 1
    by_cases hp : p.1 = bh
    · simp [hp]
    · simp [hp]

theorem filter_keys_nodup {β : Type} (l : List (Hash × β))
    (f : Hash × β → Bool) (hnd : (l.map Prod.fst).Nodup) :
    ((l.filter f).map Prod.fst).Nodup :=
  List.Nodup.sublist (List.Sublist.map Prod.fst (List.filter_sublist l)) hnd

theorem QInv_init (size : Nat) : QInv size initQState := by
  refine ⟨rfl, Nat.zero_le _, rfl, Nat.zero_le _, Nat.zero_le _, List.nodup_nil⟩

theorem QInv_step (size : Nat) (s s' : QState) (hinv : QInv size s)
    (hs : QStep size s s') : QInv size s' := by
  obtain ⟨h1, h2, h3, h4, h5, h6⟩ := hinv
  cases hs with
  | push h _ hlen =>
    refine ⟨h1, h2, h3, h4, ?_, h6⟩
    show (s.hashesQueue ++ [h]).length ≤ 2 * size
    rw [List.length_append]
    simp only [List.length_cons, List.length_nil]
    omega
  | worker h rest _ hhq hcond =>
    have hrest : rest.length + 1 = s.hashesQueue.length := by
      rw [hhq]; rfl
    unfold StartBlockRequest
    dsimp only
    by_cases hmem : h ∈ s.blockRequests
    · rw [if_pos hmem]
      refine ⟨h1, h2, h3, h4, ?_, h6⟩
      show rest.length ≤ 2 * size
      omega
    · rw [if_neg hmem]
      refine ⟨?_, ?_, h3, h4, ?_, h6⟩
      · show (h :: s.blockRequests).length = (s.blocksQueue ++ [h]).length
        rw [List.length_cons, List.length_append, h1]
        simp
      · show (s.blocksQueue ++ [h]).length ≤ size
        have := hcond hmem
        rw [List.length_append]
        simp only [List.length_cons, List.length_nil]
        omega
      · show rest.length ≤ 2 * size
        omega
  | blockRecv bh txIds _ hlock hcap =>
    unfold OnBlockReceived
    by_cases hmem : bh ∈ s.blockRequests
    · rw [if_pos hmem]
      dsimp only
      have herase : (s.blockRequests.erase bh).length =
          s.blockRequests.length - 1 := List.length_erase_of_mem hmem
      have hpos : 0 < s.blockRequests.length := List.length_pos_of_mem hmem
      by_cases hempty : txIds.isEmpty
      · rw [if_pos hempty]
        refine ⟨?_, ?_, h3, h4, h5, h6⟩
        · show (s.blockRequests.erase bh).length = s.blocksQueue.tail.length
          rw [herase, List.length_tail, h1]
        · show s.blocksQueue.tail.length ≤ size
          rw [List.length_tail]
          omega
      · rw [if_neg hempty]
        unfold StartBlockTxsRequest
        dsimp only
        by_cases hdup : (s.blockTxsRequests.lookup bh).isSome
        · rw [if_pos hdup]
          refine ⟨?_, ?_, h3, h4, h5, h6⟩
          · show (s.blockRequests.erase bh).length = s.blocksQueue.tail.length
            rw [herase, List.length_tail, h1]
          · show s.blocksQueue.tail.length ≤ size
            rw [List.length_tail]
            omega
        · rw [if_neg hdup]
          have hnone : s.blockTxsRequests.lookup bh = none :=
            Option.not_isSome_iff_eq_none.mp hdup
          have hlt : s.blockTxsQueue.length < size :=
            hcap hmem hempty (by rw [hnone]; rfl)
          refine ⟨?_, ?_, ?_, ?_, h5, ?_⟩
          · show (s.blockRequests.erase bh).length = s.blocksQueue.tail.length
            rw [herase, List.length_tail, h1]
          · show s.blocksQueue.tail.length ≤ size
            rw [List.length_tail]
            omega
          · show ((bh, txIds) :: s.blockTxsRequests).length =
              (s.blockTxsQueue ++ [bh]).length
            rw [List.length_cons, List.length_append, h3]
            simp
          · show (s.blockTxsQueue ++ [bh]).length ≤ size
            rw [List.length_append]
            simp only [List.length_cons, List.length_nil]
            omega
          · show (((bh, txIds) :: s.blockTxsRequests).map Prod.fst).Nodup
            rw [List.map_cons]
            refine List.nodup_cons.mpr ⟨?_, h6⟩
            intro hbh
            obtain ⟨p, hp, hfst⟩ := List.mem_map.mp hbh
            exact lookup_none_keys s.blockTxsRequests bh hnone p hp hfst
    · rw [if_neg hmem]
      exact ⟨h1, h2, h3, h4, h5, h6⟩
  | txRecv t _ hlock =>
    unfold OnTxReceived
    cases hlu : s.blockTxs.lookup t with
    | none => exact ⟨h1, h2, h3, h4, h5, h6⟩
    | some bh =>
      dsimp only
      cases hlu2 : s.blockTxsRequests.lookup bh with
      | none => exact ⟨h1, h2, h3, h4, h5, h6⟩
      | some grp =>
        dsimp only
        by_cases hg : (grp.filter (fun x => decide (x ≠ t))).isEmpty
        · rw [if_pos hg]
          have hpos := lookup_length_pos s.blockTxsRequests bh grp hlu2
          have hflen := filter_ne_key_length s.blockTxsRequests bh grp h6 hlu2
          refine ⟨h1, h2, ?_, ?_, h5, ?_⟩
          · show (s.blockTxsRequests.filter (fun p => decide (p.1 ≠ bh))).length =
              s.blockTxsQueue.tail.length
            rw [hflen, List.length_tail, h3]
          · show s.blockTxsQueue.tail.length ≤ size
            rw [List.length_tail]
            omega
          · exact filter_keys_nodup _ _ h6
        · rw [if_neg hg]
          refine ⟨h1, h2, ?_, ?_, h5, ?_⟩
          · show (s.blockTxsRequests.map
                (fun p => if p.1 = bh
                  then (bh, grp.filter (fun x => decide (x ≠ t))) else p)).length =
              s.blockTxsQueue.length
            rw [List.length_map, h3]
          · exact h4
          · show ((s.blockTxsRequests.map
                (fun p => if p.1 = bh
                  then (bh, grp.filter (fun x => decide (x ≠ t))) else p)).map
                  Prod.fst).Nodup
            rw [update_keys]
            exact h6
  | clearStep _ hlock =>
    exact ⟨rfl, Nat.zero_le _, rfl, Nat.zero_le _, Nat.zero_le _, List.nodup_nil⟩

theorem QInv_reachable (size : Nat) (s : QState) (h : QReach size s) :
    QInv size s := by
  induction h with
  | init => exact QInv_init size
  | step hr hstep ih => exact QInv_step size _ _ ih hstep

/-- C4: in every state reachable by a `RequestQueue` built with bound
`size`, at most `size` block requests are pending, at most `size`
block-transaction groups are pending, and the hash-intake channel holds at
most `2×size` hashes (a fuller channel blocks the producer, which the step
relation models by disabling the push). -/
theorem RequestQueue_bounds (size : Nat) (s : QState) (hreach : QReach size s) :
    s.blockRequests.length ≤ size ∧
    s.blockTxsRequests.length ≤ size ∧
    s.hashesQueue.length ≤ 2 * size := by
  obtain ⟨h1, h2, h3, h4, h5, h6⟩ := QInv_reachable size s hreach
  exact ⟨by omega, by omega, h5⟩

/-- Witness for C4 at a queue of bound 3, after pushing one hash and
promoting it to a block request. -/
theorem RequestQueue_bounds_witness :
    (StartBlockRequest 5 (QState.mk [] [] [] [] [] [] false [])).blockRequests.length ≤ 3 ∧
    (StartBlockRequest 5 (QState.mk [] [] [] [] [] [] false [])).blockTxsRequests.length ≤ 3 ∧
    (StartBlockRequest 5 (QState.mk [] [] [] [] [] [] false [])).hashesQueue.length ≤ 2 * 3 :=
  RequestQueue_bounds 3 _
    (QReach.step (QReach.step QReach.init (QStep.push 5 initQState (by decide)))
      (QStep.worker 5 [] (PushHash 5 initQState) (by decide) (fun _ => by decide)))
